import Mathlib

/-!
Shallow embedding of the Taxentia-AI ingestion core
(`src/ingestion/utils/hashing.py`, `src/ingestion/processors/chunker.py`,
`src/ingestion/processors/embeddings.py`) and proofs about it.

Text is modelled as `List Char` (Python iterates strings by code point,
which matches `Char`).  Machine arithmetic is modelled with `Nat`/`Int`
plus explicit reduction modulo `2 ^ 32` where the source masks.
-/

namespace Taxentia

/-- Text is a list of characters, as Python iterates strings by code point. -/
abbrev Str := List Char

/-! ## Basic string helpers shared by the embedded functions -/

/-- The ASCII whitespace characters stripped by Python `str.strip()`.
(Characters 11 and 12 are vertical tab and form feed.) -/
def isPySpace (c : Char) : Bool :=
  c = ' ' || c = '\t' || c = '\n' || c = '\r' || c = Char.ofNat 11 || c = Char.ofNat 12

/-- Python `str.strip()`: drop leading and trailing whitespace. -/
def stripStr (l : Str) : Str :=
  ((l.dropWhile isPySpace).reverse.dropWhile isPySpace).reverse

/-- Python `s[-k:]`: the last `k` characters, with the `k = 0` quirk that
`s[-0:]` is the whole string. -/
def lastChars (k : Nat) (l : Str) : Str :=
  if k = 0 then l else l.drop (l.length - k)

/-- Index of the last occurrence of a space, mirroring Python `str.rfind(" ")`
(`none` plays the role of `-1`). -/
def rfindSpace (l : Str) : Option Nat :=
  match l.reverse.findIdx? (fun c => c = ' ') with
  | none => none
  | some j => some (l.length - 1 - j)

/-! ## `src/ingestion/utils/hashing.py` -/

/-- One step of the rolling hash from `string_to_numeric_id`:
`hash_val = ((hash_val << 5) - hash_val) + ord(char)` followed by
`hash_val = hash_val & 0xFFFFFFFF`.  The accumulator never goes negative,
so the Python left shift / subtraction is `h * 32 - h = h * 31` and the
mask is reduction modulo `2 ^ 32`. -/
def hashStep (h : Nat) (c : Char) : Nat :=
  (h * 32 - h + c.toNat) % 4294967296

/-- `string_to_numeric_id` from `src/ingestion/utils/hashing.py`:
fold `hashStep` over the string starting from 0, then `abs` — which on the
already-masked non-negative value is the identity, written here exactly as
the source writes it (`Int.natAbs` of the accumulator). -/
def string_to_numeric_id (s : Str) : Nat :=
  Int.natAbs ((s.foldl hashStep 0 : Nat) : Int)

/-- Modelled from the spec: the §4.3 `numeric_id` algorithm (and the
TypeScript original quoted in the module docstring), which interprets the
final 32-bit accumulator as a signed two's-complement integer before
taking the absolute value. -/
def spec_numeric_id (s : Str) : Nat :=
  let h := s.foldl hashStep 0
  Int.natAbs (if h < 2147483648 then (h : Int) else (h : Int) - 4294967296)

/-- Replace every occurrence of character `a` by `b`
(Python `str.replace` for single characters). -/
def replaceChar (a b : Char) (l : Str) : Str :=
  l.map (fun c => if c = a then b else c)

/-- The citation sanitization inside `generate_chunk_id`:
`citation.replace(" ", "-").replace("/", "-").replace(".", "-")`. -/
def sanitizeCitation (citation : Str) : Str :=
  replaceChar '.' '-' (replaceChar '/' '-' (replaceChar ' ' '-' citation))

/-- `generate_chunk_id` from `src/ingestion/utils/hashing.py`:
`f"{source_type}-{sanitized_citation}-chunk-{chunk_index}"`. -/
def generate_chunk_id (source_type citation : Str) (chunk_index : Nat) : Str :=
  source_type ++ ('-' :: sanitizeCitation citation) ++
    ('-' :: 'c' :: 'h' :: 'u' :: 'n' :: 'k' :: '-' :: (toString chunk_index).toList)

/-- `generate_numeric_chunk_id` from `src/ingestion/utils/hashing.py`. -/
def generate_numeric_chunk_id (source_type citation : Str) (chunk_index : Nat) : Nat :=
  string_to_numeric_id (generate_chunk_id source_type citation chunk_index)

/-! ## `src/ingestion/processors/chunker.py` — text normalization -/

/-- Helper for `collapseNewlines`: emit a pending run of `n` newlines as
`min n 2` newlines, the effect of `re.sub(r"\n\n+", "\n\n", text)` on one
maximal run. -/
def flushNewlines (n : Nat) : Str :=
  List.replicate (min n 2) '\n'

/-- Scan for `re.sub(r"\n\n+", "\n\n", text)`: `n` counts the newlines of
the current maximal run. -/
def collapseNewlinesAux (n : Nat) : Str → Str
  | [] => flushNewlines n
  | c :: rest =>
    if c = '\n' then collapseNewlinesAux (n + 1) rest
    else flushNewlines n ++ c :: collapseNewlinesAux 0 rest

/-- `re.sub(r"\n\n+", "\n\n", text)`: every maximal run of two or more
newlines becomes exactly two; single newlines are untouched. -/
def collapseNewlines (l : Str) : Str :=
  collapseNewlinesAux 0 l

/-- Scan for `re.sub(r" +", " ", text)`: the flag records whether we are
inside a run of spaces whose first space was already emitted. -/
def collapseSpacesAux (inRun : Bool) : Str → Str
  | [] => []
  | c :: rest =>
    if c = ' ' then
      if inRun then collapseSpacesAux true rest
      else ' ' :: collapseSpacesAux true rest
    else c :: collapseSpacesAux false rest

/-- `re.sub(r" +", " ", text)`: every maximal run of spaces becomes one space. -/
def collapseSpaces (l : Str) : Str :=
  collapseSpacesAux false l

/-- `TextChunker._clean_text`: collapse newline runs, collapse space runs,
then strip. -/
def clean_text (l : Str) : Str :=
  stripStr (collapseSpaces (collapseNewlines l))

/-- Scan for Python `text.split("\n\n")`: left-to-right, non-overlapping;
`acc` holds the current field reversed. -/
def splitDoubleNewlineAux (acc : Str) : Str → List Str
  | [] => [acc.reverse]
  | '\n' :: '\n' :: rest => acc.reverse :: splitDoubleNewlineAux [] rest
  | c :: rest => splitDoubleNewlineAux (c :: acc) rest

/-- Python `text.split("\n\n")`. -/
def splitDoubleNewline (l : Str) : List Str :=
  splitDoubleNewlineAux [] l

/-! ## `src/ingestion/processors/chunker.py` — sentence splitting

The repository tries NLTK's `sent_tokenize` first and falls back to the
regex `[^.!?]*[.!?]+` when NLTK is unavailable; the NLTK tokenizer is an
external library, so the embedding models the in-repository regex
fallback path of `_split_by_sentences`. -/

/-- The sentence-terminating punctuation of the fallback regex. -/
def isSentencePunct (c : Char) : Bool :=
  c = '.' || c = '!' || c = '?'

/-- Scan for `re.findall(r"[^.!?]*[.!?]+", text)`: each match is a maximal
segment ending with a maximal run of punctuation; a trailing segment with
no punctuation is not matched.  `acc` is the current segment reversed and
`inPunct` records whether we are inside its trailing punctuation run. -/
def findallSentencesAux (acc : Str) (inPunct : Bool) : Str → List Str
  | [] => if inPunct then [acc.reverse] else []
  | c :: rest =>
    if isSentencePunct c then findallSentencesAux (c :: acc) true rest
    else if inPunct then acc.reverse :: findallSentencesAux [c] false rest
    else findallSentencesAux (c :: acc) false rest

/-- `re.findall(r"[^.!?]*[.!?]+", text)`. -/
def findallSentences (l : Str) : List Str :=
  findallSentencesAux [] false l

/-- State of the grouping loop in `_split_by_sentences`:
accumulated groups and the current group. -/
def groupStep (maxSize : Nat) (st : List Str × Str) (m : Str) : List Str × Str :=
  let (chunks, current) := st
  if current.length + m.length ≤ maxSize then (chunks, current ++ m)
  else if current = [] then (chunks, m)
  else (chunks ++ [stripStr current], m)

/-- The regex-fallback grouping loop of `_split_by_sentences`: greedily
concatenate the matches while the current group stays within `maxSize`;
groups are stripped when appended. -/
def groupSentences (maxSize : Nat) (sentMatches : List Str) : List Str :=
  let st := sentMatches.foldl (groupStep maxSize) ([], [])
  if st.2 = [] then st.1 else st.1 ++ [stripStr st.2]

/-- `TextChunker._split_by_sentences` (regex fallback path): find the
punctuation-terminated segments, group them greedily, and fall back to the
whole text when there is no match or no group. -/
def split_by_sentences (maxSize : Nat) (text : Str) : List Str :=
  let sentMatches := findallSentences text
  if sentMatches = [] then [text]
  else
    let chunks := groupSentences maxSize sentMatches
    if chunks = [] then [text] else chunks

/-! ## `src/ingestion/processors/chunker.py` — the paragraph loop -/

/-- `TextChunker._get_overlap_at_word_boundary`: return `text` unchanged
when it is no longer than `overlap` characters; otherwise take the last
`overlap` characters and cut at the last space when that space is at a
positive index (Python keeps the text when `rfind` returns `-1` or `0`). -/
def get_overlap_at_word_boundary (overlap : Nat) (text : Str) : Str :=
  if text.length ≤ overlap then text
  else
    let ov := lastChars overlap text
    match rfindSpace ov with
    | none => ov
    | some i => if 0 < i then ov.take i else ov

/-- One iteration of the `for para_chunk in para_chunks[1:-1]` loop inside
`_split_into_chunks`.  The state is `(chunks, overlap_text)`; the
`current_chunk = overlap` assignment of the `else` branch is dead in the
source because `current_chunk` is unconditionally overwritten right after
the loop, so it is not part of the state. -/
def middleStep (maxSize overlap : Nat) (st : List Str × Str) (pc : Str) : List Str × Str :=
  let (chunks, ot) := st
  let ov := ot ++ pc
  if maxSize < ov.length then
    (chunks ++ [ov], get_overlap_at_word_boundary overlap (lastChars overlap pc))
  else st

/-- One iteration of the `for paragraph in paragraphs` loop of
`_split_into_chunks`.  The state is `(chunks, current_chunk)`.  Note the
source guard `if current_chunk:` on the overflow branch: when the buffer
is empty and the paragraph does not fit, nothing at all happens and the
paragraph is dropped. -/
def paragraphStep (maxSize overlap : Nat) (st : List Str × Str) (para : Str) : List Str × Str :=
  let chunks := st.1
  let cur := st.2
  let p := stripStr para
  if p = [] then st
  else if cur.length + p.length + 2 ≤ maxSize then
    (chunks, if cur = [] then p else cur ++ ('\n' :: '\n' :: p))
  else if cur = [] then st
  else
    let chunks1 := chunks ++ [cur]
    let ot := get_overlap_at_word_boundary overlap (lastChars overlap cur)
    if maxSize < p.length then
      let pcs := split_by_sentences maxSize p
      let st2 := ((pcs.drop 1).dropLast).foldl (middleStep maxSize overlap)
        (chunks1 ++ [ot ++ pcs.headD []], ot)
      (st2.1, if 1 < pcs.length then st2.2 ++ pcs.getLastD [] else pcs.headD [])
    else (chunks1, ot ++ p)

/-- The chunk-string part of `TextChunker._split_into_chunks`: run the
paragraph loop over `text.split("\n\n")` and flush the final buffer. -/
def split_into_chunk_strings (maxSize overlap : Nat) (text : Str) : List Str :=
  let st := (splitDoubleNewline text).foldl (paragraphStep maxSize overlap) ([], [])
  if st.2 = [] then st.1 else st.1 ++ [st.2]

/-! ## `src/ingestion/processors/chunker.py` — chunk objects -/

/-- The metadata fields of `ChunkMetadata` that the chunker computes or
threads through (the optional title/section/url fields play no role in the
verified properties). -/
structure ChunkMetadata where
  source_type : Str
  citation : Str
  chunk_index : Nat
  total_chunks : Nat
deriving DecidableEq, Repr

/-- The `Chunk` pydantic model. -/
structure Chunk where
  text : Str
  metadata : ChunkMetadata
  string_id : Str
deriving DecidableEq, Repr

/-- The document metadata handed to `chunk_document`
(`metadata["source_type"]` and `metadata["citation"]`). -/
structure DocMeta where
  source_type : Str
  citation : Str
deriving DecidableEq, Repr

/-- Build one `Chunk` the way the chunker does. -/
def mkChunk (md : DocMeta) (idx total : Nat) (text : Str) : Chunk :=
  { text := text
    metadata :=
      { source_type := md.source_type
        citation := md.citation
        chunk_index := idx
        total_chunks := total }
    string_id := generate_chunk_id md.source_type md.citation idx }

/-- The `for idx, chunk_text in enumerate(chunks)` loop at the end of
`_split_into_chunks`: strip each chunk string, skip it when the strip is
empty (the index still advances), and otherwise build a `Chunk` carrying
`idx` and the precomputed `total`. -/
def toChunkObjects (md : DocMeta) (total : Nat) : Nat → List Str → List Chunk
  | _, [] => []
  | idx, t :: rest =>
    let t1 := stripStr t
    if t1 = [] then toChunkObjects md total (idx + 1) rest
    else mkChunk md idx total t1 :: toChunkObjects md total (idx + 1) rest

/-- `TextChunker._split_into_chunks`: chunk strings, then chunk objects
with `total_chunks = len(chunks)`. -/
def split_into_chunks (maxSize overlap : Nat) (md : DocMeta) (text : Str) : List Chunk :=
  let strs := split_into_chunk_strings maxSize overlap text
  toChunkObjects md strs.length 0 strs

/-- `TextChunker.chunk_document`: clean the text; empty cleaned text gives
no chunks; text within `maxSize` gives a single chunk; otherwise split. -/
def chunk_document (maxSize overlap : Nat) (md : DocMeta) (text : Str) : List Chunk :=
  let t := clean_text text
  if t = [] then []
  else if t.length ≤ maxSize then [mkChunk md 0 1 t]
  else split_into_chunks maxSize overlap md t

/-! ## `src/ingestion/processors/embeddings.py`

Embedding vectors are modelled with integer entries: every verified
property depends only on vector lengths, never on the numeric values, so
the float payload is represented by `Int`.  `count_tokens` models the
in-repository fallback heuristic `max(1, len(text) // 3)` (tiktoken is an
external library).  The `asyncio.sleep` calls (retry delay, inter-batch
delay) are timing only and have no effect on the computed result, so they
are not modelled. -/

/-- `count_tokens` from `src/ingestion/processors/embeddings.py`
(the in-repository fallback heuristic). -/
def count_tokens (text : Str) : Nat :=
  max 1 (text.length / 3)

/-- The `EmbeddedChunk` pydantic model (embedding entries as `Int`). -/
structure EmbeddedChunk where
  chunk : Chunk
  embedding : List Int
  numeric_id : Nat
  tokens : Nat
deriving DecidableEq, Repr

/-- The `IngestionBatch` pydantic model. -/
structure IngestionBatch where
  embedded_chunks : List EmbeddedChunk
  total_tokens : Nat
  batch_size : Nat
deriving DecidableEq, Repr

/-- The constructor parameters of `EmbeddingsService` that the verified
properties use, plus the hard-coded `embedding_dimension`. -/
structure EmbedConfig where
  batch_size : Nat
  max_tokens_per_batch : Nat
  embedding_dimension : Nat
deriving DecidableEq, Repr

/-- The `EmbeddingsService.__init__` defaults:
`batch_size=40`, `max_tokens_per_batch=3500`, `embedding_dimension=1536`. -/
def defaultConfig : EmbedConfig :=
  { batch_size := 40, max_tokens_per_batch := 3500, embedding_dimension := 1536 }

/-- The per-chunk truncation inside `_create_batches`: when the token
count exceeds 3000, cut the text to 9000 characters.  (The source mutates
`chunk.text` in place; the model returns the new value.) -/
def truncateChunk (c : Chunk) : Chunk :=
  if 3000 < count_tokens c.text then { c with text := c.text.take 9000 } else c

/-- The placeholder `EmbeddedChunk` built by `_create_embedded_chunk_batch`
before the API call. -/
def placeholderEmbedded (c : Chunk) : EmbeddedChunk :=
  { chunk := c, embedding := [], numeric_id := 0, tokens := count_tokens c.text }

/-- `EmbeddingsService._create_embedded_chunk_batch`. -/
def create_embedded_chunk_batch (cs : List Chunk) : IngestionBatch :=
  { embedded_chunks := cs.map placeholderEmbedded
    total_tokens := (cs.map (fun c => count_tokens c.text)).sum
    batch_size := cs.length }

/-- One iteration of the `for chunk in chunks` loop of `_create_batches`.
The state is `(batches, current_batch_chunks, current_tokens)`. -/
def batchStep (cfg : EmbedConfig) (st : List IngestionBatch × List Chunk × Nat)
    (c : Chunk) : List IngestionBatch × List Chunk × Nat :=
  let (batches, cur, curTok) := st
  let c1 := truncateChunk c
  let t := count_tokens c1.text
  if (cfg.batch_size ≤ cur.length ∨ cfg.max_tokens_per_batch < curTok + t) ∧ cur ≠ [] then
    (batches ++ [create_embedded_chunk_batch cur], [c1], t)
  else (batches, cur ++ [c1], curTok + t)

/-- `EmbeddingsService._create_batches`: run the loop and flush the final
partial batch. -/
def create_batches (cfg : EmbedConfig) (chunks : List Chunk) : List IngestionBatch :=
  let (batches, cur, _) := chunks.foldl (batchStep cfg) ([], [], 0)
  if cur = [] then batches else batches ++ [create_embedded_chunk_batch cur]

/-- What one provider call can come back with: a rate-limit error, any
other API error, or a successful response carrying one vector per input
in request order. -/
inductive ProviderResponse where
  | rateLimited
  | apiError
  | success (vectors : List (List Int))
deriving DecidableEq, Repr

/-- The exceptions that can escape `_embed_batch` / `generate_embeddings`:
`RateLimitError`, any other `APIError`, the `IndexError` from
`response.data[idx]` when the response is short, and the `ValueError`
raised on a dimension mismatch. -/
inductive EmbedError where
  | rateLimitError
  | apiErrorFatal
  | indexError
  | dimensionMismatch (got : Nat)
deriving DecidableEq, Repr

/-- A provider oracle: the response to the call for batch `i`, attempt `a`
(attempt 1 is the single retry after a rate limit). -/
abbrev Provider := Nat → Nat → ProviderResponse

/-- The `for idx, chunk_obj in enumerate(batch.embedded_chunks)` loop of
`_embed_batch`: look up `response.data[idx]` (an out-of-range index raises),
verify the vector length against the configured dimension (a mismatch
raises `ValueError`), then build the final record with the numeric id
computed from the chunk's string id. -/
def verifyAndAssign (dim : Nat) : List EmbeddedChunk → List (List Int) →
    Except EmbedError (List EmbeddedChunk)
  | [], _ => .ok []
  | _ :: _, [] => .error .indexError
  | ec :: rest, v :: vrest =>
    if v.length ≠ dim then .error (.dimensionMismatch v.length)
    else
      match verifyAndAssign dim rest vrest with
      | .error e => .error e
      | .ok tail =>
        .ok ({ chunk := ec.chunk
               embedding := v
               numeric_id := string_to_numeric_id ec.chunk.string_id
               tokens := ec.tokens } :: tail)

/-- `EmbeddingsService._embed_batch` applied to one provider response. -/
def embed_batch (cfg : EmbedConfig) (batch : IngestionBatch) (resp : ProviderResponse) :
    Except EmbedError (List EmbeddedChunk) :=
  match resp with
  | .rateLimited => .error .rateLimitError
  | .apiError => .error .apiErrorFatal
  | .success vecs => verifyAndAssign cfg.embedding_dimension batch.embedded_chunks vecs

/-- The `for batch_idx, batch in enumerate(batches)` loop of
`generate_embeddings`: call `_embed_batch`; on `RateLimitError` retry the
same batch exactly once and let any failure of the retry propagate; let
any other error of the first attempt propagate immediately. -/
def runBatches (cfg : EmbedConfig) (provider : Provider) :
    List IngestionBatch → Nat → List EmbeddedChunk → Except EmbedError (List EmbeddedChunk)
  | [], _, acc => .ok acc
  | b :: rest, idx, acc =>
    match embed_batch cfg b (provider idx 0) with
    | .ok lst => runBatches cfg provider rest (idx + 1) (acc ++ lst)
    | .error .rateLimitError =>
      match embed_batch cfg b (provider idx 1) with
      | .ok lst => runBatches cfg provider rest (idx + 1) (acc ++ lst)
      | .error e => .error e
    | .error e => .error e

/-- `EmbeddingsService.generate_embeddings`: empty input short-circuits to
an empty result; otherwise batch the chunks and drive the batches through
the provider. -/
def generate_embeddings (cfg : EmbedConfig) (provider : Provider) (chunks : List Chunk) :
    Except EmbedError (List EmbeddedChunk) :=
  if chunks = [] then .ok []
  else runBatches cfg provider (create_batches cfg chunks) 0 []

/-! ## Derived notions used by the statements below -/

/-- The "sentences" of a text under the fallback tokenizer: the regex
matches, or the whole text when there is none (`_split_by_sentences`
returns `[text]` in that case). -/
def sentencesOf (p : Str) : List Str :=
  let ms := findallSentences p
  if ms = [] then [p] else ms

/-- A batch respects the builder's limits: its recorded size is the real
chunk count, it holds at most `batch_size` chunks, and it exceeds the
token budget only as a singleton. -/
def batchOk (cfg : EmbedConfig) (b : IngestionBatch) : Prop :=
  b.batch_size = b.embedded_chunks.length ∧
  b.batch_size ≤ cfg.batch_size ∧
  (b.total_tokens ≤ cfg.max_tokens_per_batch ∨ b.batch_size = 1)

/-- The chunks of a batch list, flattened in order. -/
def joinChunks (bs : List IngestionBatch) : List Chunk :=
  (bs.map (fun b => b.embedded_chunks.map (fun ec => ec.chunk))).flatten

/-- The loop invariant of `_create_batches`: finished batches respect the
limits, the running token counter equals the current batch's token sum,
the current batch respects the count limit, and the current batch exceeds
the token budget only as a singleton. -/
def BatchInv (cfg : EmbedConfig) (st : List IngestionBatch × List Chunk × Nat) : Prop :=
  (∀ b ∈ st.1, batchOk cfg b) ∧
  st.2.1.length ≤ cfg.batch_size ∧
  st.2.2 = (st.2.1.map (fun c => count_tokens c.text)).sum ∧
  (st.2.2 ≤ cfg.max_tokens_per_batch ∨ st.2.1.length ≤ 1)

/-- Whether an embedding run produced a result (rather than raising). -/
def runOk (r : Except EmbedError (List EmbeddedChunk)) : Bool :=
  match r with
  | .ok _ => true
  | .error _ => false

/-- A string contains at least one non-whitespace character. -/
def HasContent (l : Str) : Prop :=
  ∃ c ∈ l, isPySpace c = false

/-- The content invariant of the paragraph loop: every finished chunk
string has content, and the buffer is empty or has content. -/
def ChunkStateInv (st : List Str × Str) : Prop :=
  (∀ s ∈ st.1, HasContent s) ∧ (st.2 = [] ∨ HasContent st.2)

/-- The size invariant of the paragraph loop: every finished chunk string
and the buffer stay within `maxSize + overlap` characters. -/
def SizeInv (maxSize overlap : Nat) (st : List Str × Str) : Prop :=
  (∀ s ∈ st.1, s.length ≤ maxSize + overlap) ∧ st.2.length ≤ maxSize + overlap

/-! ## Concrete fixtures for witnesses and counterexamples -/

/-- A concrete document metadata value. -/
def docMeta0 : DocMeta :=
  { source_type := "usc".toList, citation := "195".toList }

/-- A 150-character chunk: 50 tokens under the fallback counter. -/
def exampleChunk : Chunk :=
  { text := List.replicate 150 'a'
    metadata := { source_type := "usc".toList, citation := "195".toList
                  chunk_index := 0, total_chunks := 1 }
    string_id := "usc-195-chunk-0".toList }

/-- An empty batch, for exercising the retry control flow. -/
def emptyBatch : IngestionBatch :=
  { embedded_chunks := [], total_tokens := 0, batch_size := 0 }

/-- A provider that rate-limits the first attempt of every batch and
succeeds (with an empty response) on the retry. -/
def rateLimitOnceProvider : Provider :=
  fun _ attempt => if attempt = 0 then .rateLimited else .success []

/-- A provider that always fails with a generic API error. -/
def alwaysApiErrorProvider : Provider :=
  fun _ _ => .apiError

/-- A provider that always answers with a single correctly-sized vector. -/
def goodSingletonProvider : Provider :=
  fun _ _ => .success [List.replicate 1536 0]

/-! # Theorems -/

/-- C1: refuted on the code — failing input for the claimed signed
interpretation.  On `"usc-162-chunk-0"` the rolling 32-bit accumulator is
`2334825832`, whose bit 31 is set.  `string_to_numeric_id` masks with
`& 0xFFFFFFFF` (unsigned) so its final `abs` is a no-op and it returns
`2334825832`; the claimed algorithm (and the TypeScript original quoted in
the module docstring) reads the accumulator as signed two's-complement,
`2334825832 - 2^32 = -1960141464`, and returns `1960141464`. -/
theorem hash_ignores_sign_on_failing_input :
    string_to_numeric_id ("usc-162-chunk-0".toList) = 2334825832 ∧
    spec_numeric_id ("usc-162-chunk-0".toList) = 1960141464 ∧
    string_to_numeric_id ("usc-162-chunk-0".toList) ≠
      spec_numeric_id ("usc-162-chunk-0".toList) := by
  refine ⟨by decide, by decide, by decide⟩

/-- C7: refuted on the code — a document consisting of one paragraph
longer than `max_chunk_size` produces zero chunks.  The overflow branch of
`_split_into_chunks` is guarded by `if current_chunk:`, so with an empty
accumulation buffer the oversized paragraph is silently discarded instead
of being sentence-split; here the whole (non-empty, oversized) document is
lost. -/
theorem oversized_paragraph_dropped_on_empty_buffer :
    chunk_document 10 3 docMeta0 ("aaa bbb ccc.".toList) = [] ∧
    10 < (clean_text ("aaa bbb ccc.".toList)).length ∧
    sentencesOf (clean_text ("aaa bbb ccc.".toList)) = ["aaa bbb ccc.".toList] := by
  refine ⟨by decide, by decide, by decide⟩

/-- C8: refuted on the code — the overlap seed is taken verbatim.  The
call site pre-slices the buffer to its last `overlap_size` characters, so
`_get_overlap_at_word_boundary` always hits its `len(text) <= overlap_size`
early return and never trims anything: with `max=10`, `overlap=3` the
flushed buffer `"ab cdefg"` seeds the next chunk with `"efg"` — a
space-free window cut out of the middle of the word `"cdefg"` and kept,
where the claim requires it to be trimmed to a space or dropped. -/
theorem overlap_seed_keeps_midword_cut :
    chunk_document 10 3 docMeta0 ("ab cdefg\n\nxyz.".toList) =
      [mkChunk docMeta0 0 2 ("ab cdefg".toList),
       mkChunk docMeta0 1 2 ("efgxyz.".toList)] ∧
    get_overlap_at_word_boundary 3 (lastChars 3 ("ab cdefg".toList)) = "efg".toList ∧
    rfindSpace ("efg".toList) = none := by
  refine ⟨by decide, by decide, by decide⟩

/-- C6: on empty normalized text `chunk_document` returns no chunks, and
on non-empty normalized text of length at most `maxSize` it returns
exactly the one chunk holding the normalized text with `chunk_index = 0`
and `total_chunks = 1`. -/
theorem chunk_document_empty_and_single (maxSize overlap : Nat) (md : DocMeta) (text : Str) :
    (clean_text text = [] → chunk_document maxSize overlap md text = []) ∧
    (clean_text text ≠ [] → (clean_text text).length ≤ maxSize →
      chunk_document maxSize overlap md text = [mkChunk md 0 1 (clean_text text)] ∧
      (mkChunk md 0 1 (clean_text text)).text = clean_text text ∧
      (mkChunk md 0 1 (clean_text text)).metadata.chunk_index = 0 ∧
      (mkChunk md 0 1 (clean_text text)).metadata.total_chunks = 1) := by
  constructor
  · intro h
    simp [chunk_document, h]
  · intro h1 h2
    refine ⟨?_, rfl, rfl, rfl⟩
    simp only [chunk_document, if_neg h1, if_pos h2]

/-- C6 witness: a whitespace-only document yields no chunks, and a short
document yields the single normalized chunk. -/
theorem chunk_document_empty_and_single_witness :
    chunk_document 20 5 docMeta0 ("  \n ".toList) = [] ∧
    chunk_document 20 5 docMeta0 ("hello   world".toList) =
      [mkChunk docMeta0 0 1 ("hello world".toList)] := by
  constructor
  · exact (chunk_document_empty_and_single 20 5 docMeta0 ("  \n ".toList)).1 (by decide)
  · have h := ((chunk_document_empty_and_single 20 5 docMeta0
      ("hello   world".toList)).2 (by decide) (by decide)).1
    have ht : clean_text ("hello   world".toList) = "hello world".toList := by decide
    rw [ht] at h
    exact h

/-- C10: `generate_chunk_id` is not injective in the citation — any two
citations that sanitize alike yield identical string and numeric ids for
the same source type and index, and distinct such citations exist
(space, `.` and `/` all collapse to `-`). -/
theorem chunk_id_collides_on_sanitized_citations :
    (∀ st c1 c2 : Str, ∀ i : Nat, sanitizeCitation c1 = sanitizeCitation c2 →
      generate_chunk_id st c1 i = generate_chunk_id st c2 i ∧
      generate_numeric_chunk_id st c1 i = generate_numeric_chunk_id st c2 i) ∧
    ("26 USC 195".toList ≠ ("26.USC/195".toList : Str) ∧
      sanitizeCitation ("26 USC 195".toList) = sanitizeCitation ("26.USC/195".toList)) := by
  constructor
  · intro st c1 c2 i h
    have hg : generate_chunk_id st c1 i = generate_chunk_id st c2 i := by
      simp only [generate_chunk_id, h]
    exact ⟨hg, by simp only [generate_numeric_chunk_id, hg]⟩
  · exact ⟨by decide, by decide⟩

/-- C10 witness: the concrete citations `"26 USC 195"` and `"26.USC/195"`
collide on both the string id and the numeric id. -/
theorem chunk_id_collides_on_sanitized_citations_witness :
    generate_chunk_id ("usc".toList) ("26 USC 195".toList) 0 =
      generate_chunk_id ("usc".toList) ("26.USC/195".toList) 0 ∧
    generate_numeric_chunk_id ("usc".toList) ("26 USC 195".toList) 0 =
      generate_numeric_chunk_id ("usc".toList) ("26.USC/195".toList) 0 :=
  chunk_id_collides_on_sanitized_citations.1 _ _ _ 0 (by decide)

/-- C9: the retry policy of `generate_embeddings`.  When the first attempt
of a batch rate-limits, the batch is retried exactly once and the run
continues on a successful retry, while any error of the retry (a second
rate limit included) aborts the whole run; when the first attempt fails
with any non-rate-limit error it aborts the run immediately, with no
retry.  (The fixed 5-second delay before the retry and the inter-batch
delay are timing only and are not modelled.) -/
theorem rate_limit_single_retry_policy :
    (∀ (cfg : EmbedConfig) (provider : Provider) (b : IngestionBatch)
        (rest : List IngestionBatch) (idx : Nat) (acc : List EmbeddedChunk),
      embed_batch cfg b (provider idx 0) = .error .rateLimitError →
      runBatches cfg provider (b :: rest) idx acc =
        match embed_batch cfg b (provider idx 1) with
        | .ok lst => runBatches cfg provider rest (idx + 1) (acc ++ lst)
        | .error e => .error e) ∧
    (∀ (cfg : EmbedConfig) (provider : Provider) (b : IngestionBatch)
        (rest : List IngestionBatch) (idx : Nat) (acc : List EmbeddedChunk)
        (e : EmbedError), e ≠ .rateLimitError →
      embed_batch cfg b (provider idx 0) = .error e →
      runBatches cfg provider (b :: rest) idx acc = .error e) := by
  constructor
  · intro cfg provider b rest idx acc h
    simp only [runBatches, h]
  · intro cfg provider b rest idx acc e he h
    cases e with
    | rateLimitError => exact absurd rfl he
    | apiErrorFatal => simp only [runBatches, h]
    | indexError => simp only [runBatches, h]
    | dimensionMismatch got => simp only [runBatches, h]

/-- C9 witness: with an empty batch, a rate-limit on attempt 0 followed by
a success on attempt 1 lets the run complete, and a generic API error on
attempt 0 aborts the run at once. -/
theorem rate_limit_single_retry_policy_witness :
    runBatches defaultConfig rateLimitOnceProvider [emptyBatch] 0 [] = .ok [] ∧
    runBatches defaultConfig alwaysApiErrorProvider [emptyBatch] 0 [] =
      .error .apiErrorFatal := by
  constructor
  · have h := rate_limit_single_retry_policy.1 defaultConfig rateLimitOnceProvider
      emptyBatch [] 0 [] rfl
    simpa using h
  · exact rate_limit_single_retry_policy.2 defaultConfig alwaysApiErrorProvider
      emptyBatch [] 0 [] .apiErrorFatal (by decide) rfl

/-- Every record produced by a successful verification loop carries a
vector of the configured dimension. -/
lemma verifyAndAssign_ok_dims (dim : Nat) :
    ∀ (ecs : List EmbeddedChunk) (vecs : List (List Int)) (out : List EmbeddedChunk),
      verifyAndAssign dim ecs vecs = .ok out → ∀ ec ∈ out, ec.embedding.length = dim := by
  intro ecs
  induction ecs with
  | nil =>
    intro vecs out h ec hm
    simp only [verifyAndAssign, Except.ok.injEq] at h
    subst h
    simp at hm
  | cons e rest ih =>
    intro vecs out h ec hm
    cases vecs with
    | nil => exact absurd h (by simp [verifyAndAssign])
    | cons v vrest =>
      simp only [verifyAndAssign] at h
      by_cases hv : v.length ≠ dim
      · rw [if_pos hv] at h
        exact absurd h (by simp)
      · rw [if_neg hv] at h
        push_neg at hv
        cases hrec : verifyAndAssign dim rest vrest with
        | error e2 =>
          rw [hrec] at h
          exact absurd h (by simp)
        | ok tail =>
          rw [hrec] at h
          simp only [Except.ok.injEq] at h
          subst h
          rcases List.mem_cons.mp hm with h1 | h2
          · subst h1; exact hv
          · exact ih vrest tail hrec ec h2

/-- Every record of a successful `_embed_batch` carries a vector of the
configured dimension. -/
lemma embed_batch_ok_dims (cfg : EmbedConfig) (b : IngestionBatch) (resp : ProviderResponse)
    (out : List EmbeddedChunk) (h : embed_batch cfg b resp = .ok out) :
    ∀ ec ∈ out, ec.embedding.length = cfg.embedding_dimension := by
  cases resp with
  | rateLimited => exact absurd h (by simp [embed_batch])
  | apiError => exact absurd h (by simp [embed_batch])
  | success vecs => exact verifyAndAssign_ok_dims _ _ _ _ h

/-- Records accumulated by a successful batch loop all carry vectors of
the configured dimension. -/
lemma runBatches_ok_dims (cfg : EmbedConfig) (provider : Provider) :
    ∀ (batches : List IngestionBatch) (idx : Nat) (acc out : List EmbeddedChunk),
      (∀ ec ∈ acc, ec.embedding.length = cfg.embedding_dimension) →
      runBatches cfg provider batches idx acc = .ok out →
      ∀ ec ∈ out, ec.embedding.length = cfg.embedding_dimension := by
  intro batches
  induction batches with
  | nil =>
    intro idx acc out hacc h
    simp only [runBatches, Except.ok.injEq] at h
    subst h
    exact hacc
  | cons b rest ih =>
    intro idx acc out hacc h
    simp only [runBatches] at h
    cases h0 : embed_batch cfg b (provider idx 0) with
    | ok lst =>
      rw [h0] at h
      refine ih (idx + 1) (acc ++ lst) out ?_ h
      intro ec hm
      rcases List.mem_append.mp hm with h1 | h2
      · exact hacc _ h1
      · exact embed_batch_ok_dims _ _ _ _ h0 _ h2
    | error e =>
      rw [h0] at h
      cases e with
      | rateLimitError =>
        cases h1 : embed_batch cfg b (provider idx 1) with
        | ok lst =>
          rw [h1] at h
          refine ih (idx + 1) (acc ++ lst) out ?_ h
          intro ec hm
          rcases List.mem_append.mp hm with h2 | h3
          · exact hacc _ h2
          · exact embed_batch_ok_dims _ _ _ _ h1 _ h3
        | error e2 =>
          rw [h1] at h
          exact absurd h (by simp)
      | apiErrorFatal => exact absurd h (by simp)
      | indexError => exact absurd h (by simp)
      | dimensionMismatch got => exact absurd h (by simp)

/-- If position `i` of the response is missing or carries a wrong-length
vector, the verification loop fails. -/
lemma verifyAndAssign_bad (dim : Nat) :
    ∀ (ecs : List EmbeddedChunk) (vecs : List (List Int)) (i : Nat),
      i < ecs.length →
      (∀ v, vecs[i]? = some v → v.length ≠ dim) →
      runOk (verifyAndAssign dim ecs vecs) = false := by
  intro ecs
  induction ecs with
  | nil =>
    intro vecs i hi hbad
    simp at hi
  | cons e rest ih =>
    intro vecs i hi hbad
    cases vecs with
    | nil => simp [verifyAndAssign, runOk]
    | cons v vrest =>
      by_cases hv : v.length ≠ dim
      · simp [verifyAndAssign, if_pos hv, runOk]
      · push_neg at hv
        cases i with
        | zero =>
          exact absurd hv (hbad v (by simp))
        | succ j =>
          have hj : j < rest.length := by simpa using hi
          have hbad2 : ∀ w, vrest[j]? = some w → w.length ≠ dim := by
            intro w hw
            exact hbad w (by simpa using hw)
          have hrec := ih vrest j hj hbad2
          have hne : ¬ v.length ≠ dim := fun hne => hne hv
          simp only [verifyAndAssign, if_neg hne]
          cases hr : verifyAndAssign dim rest vrest with
          | error e2 => simp [runOk]
          | ok tail => rw [hr] at hrec; simp [runOk] at hrec

/-- C2: the dimension guard of `generate_embeddings`.
(1) Whenever the run returns records at all, every record's embedding has
exactly the configured dimension.
(2) A consumed response whose vector at some chunk position is missing or
has the wrong length makes `_embed_batch` raise.
(3) The failure is fatal for the whole run, not just the batch: when both
attempts at a batch fail, the batch loop returns an error from any state —
`acc` below holds the records of every batch embedded successfully before
the failure, `rest` the batches after it, and the error result carries no
records, so the caller receives zero `EmbeddedChunk` records (no partial
result).
(4) `generate_embeddings` on non-empty input is exactly that batch loop
started with no accumulated records, so (3) applies to the whole run.
The configured dimension is 1536. -/
theorem generate_embeddings_dimension_guard :
    (∀ (cfg : EmbedConfig) (provider : Provider) (chunks : List Chunk)
        (out : List EmbeddedChunk),
      generate_embeddings cfg provider chunks = .ok out →
      ∀ ec ∈ out, ec.embedding.length = cfg.embedding_dimension) ∧
    (∀ (cfg : EmbedConfig) (b : IngestionBatch) (vecs : List (List Int)) (i : Nat),
      i < b.embedded_chunks.length →
      (∀ v, vecs[i]? = some v → v.length ≠ cfg.embedding_dimension) →
      runOk (embed_batch cfg b (.success vecs)) = false) ∧
    (∀ (cfg : EmbedConfig) (provider : Provider) (b : IngestionBatch)
        (rest : List IngestionBatch) (idx : Nat) (acc : List EmbeddedChunk),
      runOk (embed_batch cfg b (provider idx 0)) = false →
      runOk (embed_batch cfg b (provider idx 1)) = false →
      runOk (runBatches cfg provider (b :: rest) idx acc) = false) ∧
    (∀ (cfg : EmbedConfig) (provider : Provider) (chunks : List Chunk),
      chunks ≠ [] →
      generate_embeddings cfg provider chunks =
        runBatches cfg provider (create_batches cfg chunks) 0 []) ∧
    defaultConfig.embedding_dimension = 1536 := by
  refine ⟨?_, ?_, ?_, ?_, rfl⟩
  · intro cfg provider chunks out h
    by_cases hc : chunks = []
    · rw [generate_embeddings, if_pos hc] at h
      simp only [Except.ok.injEq] at h
      subst h
      simp
    · rw [generate_embeddings, if_neg hc] at h
      exact runBatches_ok_dims cfg provider _ 0 [] out (by simp) h
  · intro cfg b vecs i hi hbad
    exact verifyAndAssign_bad cfg.embedding_dimension b.embedded_chunks vecs i hi hbad
  · intro cfg provider b rest idx acc h0 h1
    simp only [runBatches]
    cases he0 : embed_batch cfg b (provider idx 0) with
    | ok lst =>
      rw [he0] at h0
      simp [runOk] at h0
    | error e =>
      cases e with
      | rateLimitError =>
        cases he1 : embed_batch cfg b (provider idx 1) with
        | ok lst =>
          rw [he1] at h1
          simp [runOk] at h1
        | error e2 => simp [runOk]
      | apiErrorFatal => simp [runOk]
      | indexError => simp [runOk]
      | dimensionMismatch got => simp [runOk]
  · intro cfg provider chunks hne
    rw [generate_embeddings, if_neg hne]

set_option maxRecDepth 100000 in
/-- C2 witness: a run over one 150-character chunk with a well-behaved
provider returns a single record whose vector length is the configured
1536; a batch answered with one empty vector makes `_embed_batch` fail;
a run that reaches a batch failing on both attempts returns an error even
though a record from an earlier batch had already been accumulated; and
`generate_embeddings` on the non-empty input is the batch loop itself. -/
theorem generate_embeddings_dimension_guard_witness :
    ({ chunk := exampleChunk
       embedding := List.replicate 1536 0
       numeric_id := 617889224
       tokens := 50 } : EmbeddedChunk).embedding.length =
        defaultConfig.embedding_dimension ∧
    runOk (embed_batch defaultConfig (create_embedded_chunk_batch [exampleChunk])
      (.success [[]])) = false ∧
    runOk (runBatches defaultConfig alwaysApiErrorProvider
      [create_embedded_chunk_batch [exampleChunk]] 0
      [placeholderEmbedded exampleChunk]) = false ∧
    generate_embeddings defaultConfig goodSingletonProvider [exampleChunk] =
      runBatches defaultConfig goodSingletonProvider
        (create_batches defaultConfig [exampleChunk]) 0 [] := by
  refine ⟨?_, ?_, ?_, ?_⟩
  · have hout : generate_embeddings defaultConfig goodSingletonProvider [exampleChunk] =
        .ok [{ chunk := exampleChunk
               embedding := List.replicate 1536 0
               numeric_id := 617889224
               tokens := 50 }] := by rfl
    exact generate_embeddings_dimension_guard.1 defaultConfig goodSingletonProvider
      [exampleChunk] _ hout _ (List.mem_singleton.mpr rfl)
  · refine generate_embeddings_dimension_guard.2.1 defaultConfig
      (create_embedded_chunk_batch [exampleChunk]) [[]] 0 (by decide) ?_
    intro v hv
    simp only [List.getElem?_cons_zero, Option.some.injEq] at hv
    subst hv
    decide
  · exact generate_embeddings_dimension_guard.2.2.1 defaultConfig alwaysApiErrorProvider
      (create_embedded_chunk_batch [exampleChunk]) [] 0
      [placeholderEmbedded exampleChunk] rfl rfl
  · exact generate_embeddings_dimension_guard.2.2.2.1 defaultConfig goodSingletonProvider
      [exampleChunk] (by decide)

/-- Folding a step function that preserves a predicate preserves it. -/
lemma foldl_preserves {α σ : Type _} (f : σ → α → σ) (P : σ → Prop) :
    ∀ (l : List α) (s : σ), (∀ s a, a ∈ l → P s → P (f s a)) → P s → P (l.foldl f s) := by
  intro l
  induction l with
  | nil => intro s _ hs; exact hs
  | cons a rest ih =>
    intro s hstep hs
    exact ih (f s a) (fun s2 b hb h2 => hstep s2 b (List.mem_cons_of_mem a hb) h2)
      (hstep s a (List.mem_cons_self a rest) hs)

/-- Flattening the chunks of a batch built by `_create_embedded_chunk_batch`
returns the chunks themselves. -/
lemma joinChunks_append_batch (bs : List IngestionBatch) (cur : List Chunk) :
    joinChunks (bs ++ [create_embedded_chunk_batch cur]) = joinChunks bs ++ cur := by
  have hcomp : ((fun ec : EmbeddedChunk => ec.chunk) ∘ placeholderEmbedded) = id := rfl
  simp [joinChunks, create_embedded_chunk_batch, List.map_map, hcomp]

/-- One `_create_batches` step appends exactly the truncated chunk to the
flattened output. -/
lemma batchStep_join (cfg : EmbedConfig) (st : List IngestionBatch × List Chunk × Nat)
    (c : Chunk) :
    joinChunks (batchStep cfg st c).1 ++ (batchStep cfg st c).2.1 =
    joinChunks st.1 ++ st.2.1 ++ [truncateChunk c] := by
  obtain ⟨batches, cur, curTok⟩ := st
  by_cases hcond : (cfg.batch_size ≤ cur.length ∨
      cfg.max_tokens_per_batch < curTok + count_tokens (truncateChunk c).text) ∧ cur ≠ []
  · simp only [batchStep, if_pos hcond, joinChunks_append_batch]
  · simp only [batchStep, if_neg hcond]
    simp

/-- One `_create_batches` step preserves the loop invariant. -/
lemma batchStep_inv (cfg : EmbedConfig) (hbs : 1 ≤ cfg.batch_size)
    (st : List IngestionBatch × List Chunk × Nat) (c : Chunk) (h : BatchInv cfg st) :
    BatchInv cfg (batchStep cfg st c) := by
  obtain ⟨batches, cur, curTok⟩ := st
  obtain ⟨hball, hlen, hsum, hdisj⟩ := h
  dsimp only at hball hlen hsum hdisj
  by_cases hcond : (cfg.batch_size ≤ cur.length ∨
      cfg.max_tokens_per_batch < curTok + count_tokens (truncateChunk c).text) ∧ cur ≠ []
  · simp only [batchStep, if_pos hcond]
    refine ⟨?_, by simpa using hbs, by simp, Or.inr (by simp)⟩
    intro b hb
    rcases List.mem_append.mp hb with h1 | h2
    · exact hball b h1
    · rw [List.mem_singleton.mp h2]
      refine ⟨by simp [create_embedded_chunk_batch], ?_, ?_⟩
      · simpa [create_embedded_chunk_batch] using hlen
      · rcases hdisj with hd | hd
        · exact Or.inl (by simpa [create_embedded_chunk_batch, ← hsum] using hd)
        · refine Or.inr ?_
          have hne : cur ≠ [] := hcond.2
          have h1 : 1 ≤ cur.length := List.length_pos.mpr hne
          simp only [create_embedded_chunk_batch]
          omega
  · simp only [batchStep, if_neg hcond]
    by_cases hne : cur = []
    · subst hne
      simp only [List.map_nil, List.sum_nil] at hsum
      subst hsum
      exact ⟨hball, by simpa using hbs, by simp, Or.inr (by simp)⟩
    · have hnf : ¬(cfg.batch_size ≤ cur.length ∨
          cfg.max_tokens_per_batch < curTok + count_tokens (truncateChunk c).text) :=
        fun hor => hcond ⟨hor, hne⟩
      push_neg at hnf
      obtain ⟨hlt, hle⟩ := hnf
      refine ⟨hball, ?_, ?_, Or.inl hle⟩
      · simp only [List.length_append, List.length_singleton]
        omega
      · simp [hsum]

/-- Over the whole loop, the flattened output plus the open batch is the
truncated input, in order. -/
lemma create_batches_fold_join (cfg : EmbedConfig) :
    ∀ (chunks : List Chunk) (st : List IngestionBatch × List Chunk × Nat),
      joinChunks (chunks.foldl (batchStep cfg) st).1 ++
          (chunks.foldl (batchStep cfg) st).2.1 =
        joinChunks st.1 ++ st.2.1 ++ chunks.map truncateChunk := by
  intro chunks
  induction chunks with
  | nil => intro st; simp
  | cons c rest ih =>
    intro st
    simp only [List.foldl_cons, List.map_cons]
    rw [ih (batchStep cfg st c), batchStep_join]
    simp

set_option maxRecDepth 1000000 in
/-- C3: `_create_batches` respects its limits and partitions its input.
Every emitted batch holds at most `batch_size` chunks and exceeds the
token budget only as a singleton; the flattened batches are exactly the
input chunks (after per-chunk truncation) in their original order, so each
chunk lands in exactly one batch and in-batch order is preserved.  On 45
chunks of 50 tokens each with the default limits (40 chunks, 3500 tokens)
it produces exactly two batches of sizes 40 and 5. -/
theorem create_batches_bounded_and_ordered :
    (∀ (cfg : EmbedConfig) (chunks : List Chunk), 1 ≤ cfg.batch_size →
      (∀ b ∈ create_batches cfg chunks, batchOk cfg b) ∧
      joinChunks (create_batches cfg chunks) = chunks.map truncateChunk) ∧
    (create_batches defaultConfig (List.replicate 45 exampleChunk)).map
      (fun b => b.batch_size) = [40, 5] ∧
    count_tokens exampleChunk.text = 50 := by
  refine ⟨?_, by decide, by decide⟩
  intro cfg chunks hbs
  have hinv : BatchInv cfg (chunks.foldl (batchStep cfg) ([], [], 0)) := by
    refine foldl_preserves (batchStep cfg) (BatchInv cfg) chunks ([], [], 0)
      (fun s a _ h => batchStep_inv cfg hbs s a h) ?_
    exact ⟨by simp, by simp, by simp, Or.inl (by simp)⟩
  have hjoin := create_batches_fold_join cfg chunks ([], [], 0)
  rcases hst : chunks.foldl (batchStep cfg) ([], [], 0) with ⟨bs, cur, tok⟩
  rw [hst] at hinv hjoin
  obtain ⟨hball, hlen, hsum, hdisj⟩ := hinv
  dsimp only at hball hlen hsum hdisj hjoin
  simp only [joinChunks, List.map_nil, List.flatten_nil, List.nil_append] at hjoin
  have hcb : create_batches cfg chunks =
      if cur = [] then bs else bs ++ [create_embedded_chunk_batch cur] := by
    simp only [create_batches, hst]
  by_cases hcur : cur = []
  · subst hcur
    rw [hcb]
    simp only [if_pos rfl]
    constructor
    · exact hball
    · simpa using hjoin
  · rw [hcb, if_neg hcur]
    constructor
    · intro b hb
      rcases List.mem_append.mp hb with h1 | h2
      · exact hball b h1
      · rw [List.mem_singleton.mp h2]
        refine ⟨by simp [create_embedded_chunk_batch], ?_, ?_⟩
        · simpa [create_embedded_chunk_batch] using hlen
        · rcases hdisj with hd | hd
          · exact Or.inl (by simpa [create_embedded_chunk_batch, ← hsum] using hd)
          · refine Or.inr ?_
            have h1 : 1 ≤ cur.length := List.length_pos.mpr hcur
            simp only [create_embedded_chunk_batch]
            omega
    · rw [joinChunks_append_batch]
      exact hjoin

/-- C3 witness: the single-chunk instance of the partition property at the
default configuration. -/
theorem create_batches_bounded_and_ordered_witness :
    joinChunks (create_batches defaultConfig [exampleChunk]) =
      [exampleChunk].map truncateChunk :=
  (create_batches_bounded_and_ordered.1 defaultConfig [exampleChunk] (by decide)).2

/-! ## String lemmas for the chunker proofs -/

/-- `dropWhile` keeps every element the predicate rejects. -/
lemma mem_dropWhile_of_mem {p : Char → Bool} :
    ∀ {l : Str} {c : Char}, c ∈ l → p c = false → c ∈ l.dropWhile p := by
  intro l
  induction l with
  | nil => intro c h _; simp at h
  | cons x xs ih =>
    intro c hc hpc
    by_cases hx : p x
    · rcases List.mem_cons.mp hc with h1 | h2
      · subst h1; rw [hx] at hpc; cases hpc
      · simpa [List.dropWhile_cons, hx] using ih h2 hpc
    · simpa [List.dropWhile_cons, hx] using hc

/-- `strip` keeps every non-whitespace character. -/
lemma mem_stripStr_of_mem {l : Str} {c : Char} (hc : c ∈ l) (hpc : isPySpace c = false) :
    c ∈ stripStr l := by
  unfold stripStr
  rw [List.mem_reverse]
  exact mem_dropWhile_of_mem (by rw [List.mem_reverse]; exact mem_dropWhile_of_mem hc hpc) hpc

/-- A string of pure whitespace strips to nothing. -/
lemma stripStr_eq_nil_of_no_content {l : Str} (h : ∀ c ∈ l, isPySpace c = true) :
    stripStr l = [] := by
  have h1 : l.dropWhile isPySpace = [] := List.dropWhile_eq_nil_iff.mpr h
  simp [stripStr, h1]

/-- A string that does not strip to nothing has content. -/
lemma hasContent_of_stripStr_ne_nil {l : Str} (h : stripStr l ≠ []) : HasContent l := by
  by_contra hc
  refine h (stripStr_eq_nil_of_no_content ?_)
  intro c hcm
  by_contra hcs
  exact hc ⟨c, hcm, by simpa using hcs⟩

/-- A string with content strips to a string with content. -/
lemma hasContent_stripStr {l : Str} (h : HasContent l) : HasContent (stripStr l) := by
  obtain ⟨c, hcm, hcs⟩ := h
  exact ⟨c, mem_stripStr_of_mem hcm hcs, hcs⟩

/-- A string with content does not strip to nothing. -/
lemma stripStr_ne_nil_of_hasContent {l : Str} (h : HasContent l) : stripStr l ≠ [] := by
  obtain ⟨c, hcm, hcs⟩ := h
  exact List.ne_nil_of_mem (mem_stripStr_of_mem hcm hcs)

/-- Appending to the left preserves content. -/
lemma hasContent_append_right {x y : Str} (h : HasContent y) : HasContent (x ++ y) := by
  obtain ⟨c, hcm, hcs⟩ := h
  exact ⟨c, List.mem_append_right x hcm, hcs⟩

/-- Stripping never lengthens a string. -/
lemma stripStr_length_le (l : Str) : (stripStr l).length ≤ l.length := by
  unfold stripStr
  rw [List.length_reverse]
  refine le_trans (List.Sublist.length_le (List.dropWhile_sublist _)) ?_
  rw [List.length_reverse]
  exact List.Sublist.length_le (List.dropWhile_sublist _)

/-- The head (with default) of a non-empty list is a member. -/
lemma headD_mem {α : Type _} {l : List α} (d : α) (h : l ≠ []) : l.headD d ∈ l := by
  cases l with
  | nil => exact absurd rfl h
  | cons a as => simp

/-- The last element (with default) of a non-empty list is a member. -/
lemma getLastD_mem {α : Type _} : ∀ (l : List α) (d : α), l ≠ [] → l.getLastD d ∈ l := by
  intro l
  induction l with
  | nil => intro d h; exact absurd rfl h
  | cons a as ih =>
    intro d _
    cases has : as with
    | nil => simp
    | cons b bs =>
      have h2 := ih a (by simp [has])
      rw [has] at h2
      simpa [List.getLastD_cons] using Or.inr h2

/-- The sentence punctuation characters are not whitespace. -/
lemma punct_not_space {c : Char} (h : isSentencePunct c = true) : isPySpace c = false := by
  simp only [isSentencePunct, Bool.or_eq_true, decide_eq_true_eq] at h
  rcases h with (h | h) | h <;> subst h <;> decide

/-- Every regex match emitted by the sentence scan contains a punctuation
character (the `[.!?]+` part of the pattern is non-empty). -/
lemma findallSentencesAux_punct :
    ∀ (l : Str) (acc : Str) (inPunct : Bool),
      (inPunct = true → ∃ c ∈ acc, isSentencePunct c = true) →
      ∀ s ∈ findallSentencesAux acc inPunct l, ∃ c ∈ s, isSentencePunct c = true := by
  intro l
  induction l with
  | nil =>
    intro acc inPunct hinv s hs
    cases inPunct with
    | false => simp [findallSentencesAux] at hs
    | true =>
      simp [findallSentencesAux] at hs
      subst hs
      obtain ⟨c, hcm, hcp⟩ := hinv rfl
      exact ⟨c, List.mem_reverse.mpr hcm, hcp⟩
  | cons ch rest ih =>
    intro acc inPunct hinv s hs
    cases hp : isSentencePunct ch with
    | true =>
      simp only [findallSentencesAux, hp, if_pos] at hs
      exact ih (ch :: acc) true (fun _ => ⟨ch, List.mem_cons_self ch acc, hp⟩) s hs
    | false =>
      cases inPunct with
      | true =>
        simp only [findallSentencesAux, hp, Bool.false_eq_true, if_false, if_pos,
          List.mem_cons] at hs
        rcases hs with h1 | h2
        · subst h1
          obtain ⟨c, hcm, hcp⟩ := hinv rfl
          exact ⟨c, List.mem_reverse.mpr hcm, hcp⟩
        · exact ih [ch] false (fun h => nomatch h) s h2
      | false =>
        simp only [findallSentencesAux, hp, Bool.false_eq_true, if_false] at hs
        exact ih (ch :: acc) false (fun h => nomatch h) s hs

/-- Every element of `findallSentences` contains sentence punctuation. -/
lemma findallSentences_punct {l : Str} :
    ∀ s ∈ findallSentences l, ∃ c ∈ s, isSentencePunct c = true :=
  findallSentencesAux_punct l [] false (fun h => nomatch h)

/-- A string containing punctuation has content. -/
lemma hasContent_of_punct {s : Str} (h : ∃ c ∈ s, isSentencePunct c = true) :
    HasContent s := by
  obtain ⟨c, hcm, hcp⟩ := h
  exact ⟨c, hcm, punct_not_space hcp⟩

/-- The grouping loop keeps punctuation in every group: invariant form. -/
lemma groupSentences_punct {maxSize : Nat} {ms : List Str}
    (hm : ∀ m ∈ ms, ∃ c ∈ m, isSentencePunct c = true) :
    ∀ g ∈ groupSentences maxSize ms, ∃ c ∈ g, isSentencePunct c = true := by
  have key : ∀ st : List Str × Str,
      ((∀ g ∈ st.1, ∃ c ∈ g, isSentencePunct c = true) ∧
        (st.2 ≠ [] → ∃ c ∈ st.2, isSentencePunct c = true)) →
      ((∀ g ∈ (ms.foldl (groupStep maxSize) st).1, ∃ c ∈ g, isSentencePunct c = true) ∧
        ((ms.foldl (groupStep maxSize) st).2 ≠ [] →
          ∃ c ∈ (ms.foldl (groupStep maxSize) st).2, isSentencePunct c = true)) := by
    intro st hst
    refine foldl_preserves (groupStep maxSize)
      (fun st => (∀ g ∈ st.1, ∃ c ∈ g, isSentencePunct c = true) ∧
        (st.2 ≠ [] → ∃ c ∈ st.2, isSentencePunct c = true)) ms st ?_ hst
    intro s m hmem hstp
    obtain ⟨h1, h2⟩ := hstp
    obtain ⟨chunks, current⟩ := s
    dsimp only at h1 h2
    have hmp := hm m hmem
    by_cases hfit : current.length + m.length ≤ maxSize
    · simp only [groupStep, if_pos hfit]
      refine ⟨h1, fun _ => ?_⟩
      obtain ⟨c, hcm, hcp⟩ := hmp
      exact ⟨c, List.mem_append_right current hcm, hcp⟩
    · by_cases hcur : current = []
      · simp only [groupStep, if_neg hfit, if_pos hcur]
        exact ⟨h1, fun _ => hmp⟩
      · simp only [groupStep, if_neg hfit, if_neg hcur]
        refine ⟨?_, fun _ => hmp⟩
        intro g hg
        rcases List.mem_append.mp hg with hg1 | hg2
        · exact h1 g hg1
        · rw [List.mem_singleton.mp hg2]
          obtain ⟨c, hcm, hcp⟩ := h2 hcur
          exact ⟨c, mem_stripStr_of_mem hcm (punct_not_space hcp), hcp⟩
  intro g hg
  have hres := key ([], []) ⟨by simp, fun h => absurd rfl h⟩
  unfold groupSentences at hg
  rcases hfold : ms.foldl (groupStep maxSize) ([], []) with ⟨chunks, current⟩
  rw [hfold] at hres hg
  obtain ⟨h1, h2⟩ := hres
  dsimp only at h1 h2 hg
  by_cases hcur : current = []
  · rw [if_pos hcur] at hg
    exact h1 g hg
  · rw [if_neg hcur] at hg
    rcases List.mem_append.mp hg with hg1 | hg2
    · exact h1 g hg1
    · rw [List.mem_singleton.mp hg2]
      obtain ⟨c, hcm, hcp⟩ := h2 hcur
      exact ⟨c, mem_stripStr_of_mem hcm (punct_not_space hcp), hcp⟩

/-- The grouping loop respects `maxSize` when every match does. -/
lemma groupSentences_le {maxSize : Nat} {ms : List Str}
    (hm : ∀ m ∈ ms, m.length ≤ maxSize) :
    ∀ g ∈ groupSentences maxSize ms, g.length ≤ maxSize := by
  have key : ∀ st : List Str × Str,
      ((∀ g ∈ st.1, g.length ≤ maxSize) ∧ st.2.length ≤ maxSize) →
      ((∀ g ∈ (ms.foldl (groupStep maxSize) st).1, g.length ≤ maxSize) ∧
        (ms.foldl (groupStep maxSize) st).2.length ≤ maxSize) := by
    intro st hst
    refine foldl_preserves (groupStep maxSize)
      (fun st => (∀ g ∈ st.1, g.length ≤ maxSize) ∧ st.2.length ≤ maxSize) ms st ?_ hst
    intro s m hmem hstp
    obtain ⟨h1, h2⟩ := hstp
    obtain ⟨chunks, current⟩ := s
    dsimp only at h1 h2
    by_cases hfit : current.length + m.length ≤ maxSize
    · simp only [groupStep, if_pos hfit]
      exact ⟨h1, by simpa using hfit⟩
    · by_cases hcur : current = []
      · simp only [groupStep, if_neg hfit, if_pos hcur]
        exact ⟨h1, hm m hmem⟩
      · simp only [groupStep, if_neg hfit, if_neg hcur]
        refine ⟨?_, hm m hmem⟩
        intro g hg
        rcases List.mem_append.mp hg with hg1 | hg2
        · exact h1 g hg1
        · rw [List.mem_singleton.mp hg2]
          exact le_trans (stripStr_length_le current) h2
  intro g hg
  have hres := key ([], []) ⟨by simp, by simp⟩
  unfold groupSentences at hg
  rcases hfold : ms.foldl (groupStep maxSize) ([], []) with ⟨chunks, current⟩
  rw [hfold] at hres hg
  obtain ⟨h1, h2⟩ := hres
  dsimp only at h1 h2 hg
  by_cases hcur : current = []
  · rw [if_pos hcur] at hg
    exact h1 g hg
  · rw [if_neg hcur] at hg
    rcases List.mem_append.mp hg with hg1 | hg2
    · exact h1 g hg1
    · rw [List.mem_singleton.mp hg2]
      exact le_trans (stripStr_length_le current) h2

/-- With non-empty matches, the grouping loop emits at least one group. -/
lemma groupSentences_ne_nil {maxSize : Nat} {ms : List Str}
    (hm : ∀ m ∈ ms, m ≠ []) (hne : ms ≠ []) :
    groupSentences maxSize ms ≠ [] := by
  have step_ne : ∀ (st : List Str × Str) (m : Str), m ≠ [] →
      (groupStep maxSize st m).2 ≠ [] := by
    intro st m hm2
    obtain ⟨chunks, current⟩ := st
    by_cases hfit : current.length + m.length ≤ maxSize
    · simp only [groupStep, if_pos hfit]
      simp [hm2]
    · by_cases hcur : current = []
      · simp only [groupStep, if_neg hfit, if_pos hcur]
        exact hm2
      · simp only [groupStep, if_neg hfit, if_neg hcur]
        exact hm2
  obtain ⟨m0, rest, rfl⟩ : ∃ m0 rest, ms = m0 :: rest := by
    cases ms with
    | nil => exact absurd rfl hne
    | cons a as => exact ⟨a, as, rfl⟩
  have hcur_ne : (List.foldl (groupStep maxSize) ([], []) (m0 :: rest)).2 ≠ [] := by
    rw [List.foldl_cons]
    refine foldl_preserves (groupStep maxSize) (fun st => st.2 ≠ []) rest _ ?_ ?_
    · intro s a ha _
      exact step_ne s a (hm a (List.mem_cons_of_mem m0 ha))
    · exact step_ne ([], []) m0 (hm m0 (List.mem_cons_self m0 rest))
  unfold groupSentences
  rcases hfold : List.foldl (groupStep maxSize) ([], []) (m0 :: rest) with ⟨chunks, current⟩
  rw [hfold] at hcur_ne
  dsimp only at hcur_ne
  rw [if_neg hcur_ne]
  simp

/-- `_split_by_sentences` never returns an empty list. -/
lemma split_by_sentences_ne_nil {maxSize : Nat} {p : Str} :
    split_by_sentences maxSize p ≠ [] := by
  unfold split_by_sentences
  by_cases hms : findallSentences p = []
  · simp [hms]
  · rw [if_neg hms]
    by_cases hch : groupSentences maxSize (findallSentences p) = []
    · simp [hch]
    · simp [hch]

/-- Every piece produced by `_split_by_sentences` on a text with content
has content. -/
lemma split_by_sentences_content {maxSize : Nat} {p : Str} (hp : HasContent p) :
    ∀ g ∈ split_by_sentences maxSize p, HasContent g := by
  intro g hg
  unfold split_by_sentences at hg
  by_cases hms : findallSentences p = []
  · rw [if_pos hms] at hg
    rw [List.mem_singleton.mp hg]
    exact hp
  · rw [if_neg hms] at hg
    by_cases hch : groupSentences maxSize (findallSentences p) = []
    · rw [if_pos hch] at hg
      rw [List.mem_singleton.mp hg]
      exact hp
    · rw [if_neg hch] at hg
      exact hasContent_of_punct (groupSentences_punct (fun m hm => findallSentences_punct m hm) g hg)

/-- Every piece produced by `_split_by_sentences` respects `maxSize` when
every sentence of the text does. -/
lemma split_by_sentences_le {maxSize : Nat} {p : Str}
    (hs : ∀ s ∈ sentencesOf p, s.length ≤ maxSize) :
    ∀ g ∈ split_by_sentences maxSize p, g.length ≤ maxSize := by
  intro g hg
  unfold split_by_sentences at hg
  by_cases hms : findallSentences p = []
  · rw [if_pos hms] at hg
    rw [List.mem_singleton.mp hg]
    have : p ∈ sentencesOf p := by
      unfold sentencesOf
      rw [hms]
      simp
    exact hs p this
  · have hsent : ∀ m ∈ findallSentences p, m.length ≤ maxSize := by
      intro m hm
      refine hs m ?_
      unfold sentencesOf
      rw [if_neg hms]
      exact hm
    rw [if_neg hms] at hg
    have hne : groupSentences maxSize (findallSentences p) ≠ [] := by
      refine groupSentences_ne_nil ?_ hms
      intro m hm
      obtain ⟨c, hcm, _⟩ := findallSentences_punct m hm
      exact List.ne_nil_of_mem hcm
    rw [if_neg hne] at hg
    exact groupSentences_le hsent g hg

/-- The middle loop of the oversized-paragraph branch keeps every finished
chunk string contentful. -/
lemma middleFold_content (maxSize overlap : Nat) (l : List Str) (st0 : List Str × Str)
    (hl : ∀ g ∈ l, HasContent g) (hst0 : ∀ s ∈ st0.1, HasContent s) :
    ∀ s ∈ (l.foldl (middleStep maxSize overlap) st0).1, HasContent s := by
  refine foldl_preserves (middleStep maxSize overlap)
    (fun st => ∀ s ∈ st.1, HasContent s) l st0 ?_ hst0
  intro s a ha hs
  obtain ⟨cks, ot⟩ := s
  dsimp only at hs
  unfold middleStep
  dsimp only
  by_cases hov : maxSize < (ot ++ a).length
  · rw [if_pos hov]
    intro s2 hs2
    rcases List.mem_append.mp hs2 with h1 | h2
    · exact hs s2 h1
    · rw [List.mem_singleton.mp h2]
      exact hasContent_append_right (hl a ha)
  · rw [if_neg hov]
    exact hs

/-- One paragraph step keeps the content invariant. -/
lemma paragraphStep_content (maxSize overlap : Nat) (st : List Str × Str) (para : Str)
    (h : ChunkStateInv st) : ChunkStateInv (paragraphStep maxSize overlap st para) := by
  obtain ⟨chunks, cur⟩ := st
  obtain ⟨hchunks, hcur⟩ := h
  dsimp only at hchunks hcur
  unfold paragraphStep
  dsimp only
  by_cases hp : stripStr para = []
  · rw [if_pos hp]
    exact ⟨hchunks, hcur⟩
  · rw [if_neg hp]
    have hpc : HasContent (stripStr para) :=
      hasContent_stripStr (hasContent_of_stripStr_ne_nil hp)
    by_cases hfit : cur.length + (stripStr para).length + 2 ≤ maxSize
    · rw [if_pos hfit]
      refine ⟨hchunks, Or.inr ?_⟩
      by_cases hcn : cur = []
      · rw [if_pos hcn]
        exact hpc
      · rw [if_neg hcn]
        obtain ⟨c, hcm, hcs⟩ := hpc
        exact ⟨c, List.mem_append_right _
          (List.mem_cons_of_mem _ (List.mem_cons_of_mem _ hcm)), hcs⟩
    · rw [if_neg hfit]
      by_cases hcn : cur = []
      · rw [if_pos hcn]
        exact ⟨hchunks, hcur⟩
      · rw [if_neg hcn]
        have hcurc : HasContent cur := hcur.resolve_left hcn
        have hchunks1 : ∀ s ∈ chunks ++ [cur], HasContent s := by
          intro s hs
          rcases List.mem_append.mp hs with h1 | h2
          · exact hchunks s h1
          · rw [List.mem_singleton.mp h2]
            exact hcurc
        by_cases hbig : maxSize < (stripStr para).length
        · rw [if_pos hbig]
          have hpcsne : split_by_sentences maxSize (stripStr para) ≠ [] :=
            split_by_sentences_ne_nil
          have hpcsc : ∀ g ∈ split_by_sentences maxSize (stripStr para), HasContent g :=
            split_by_sentences_content hpc
          constructor
          · refine middleFold_content maxSize overlap _ _ ?_ ?_
            · intro g hg
              refine hpcsc g ?_
              exact (List.drop_sublist 1 _).subset ((List.dropLast_sublist _).subset hg)
            · intro s hs
              rcases List.mem_append.mp hs with h1 | h2
              · exact hchunks1 s h1
              · rw [List.mem_singleton.mp h2]
                exact hasContent_append_right (hpcsc _ (headD_mem [] hpcsne))
          · refine Or.inr ?_
            dsimp only
            by_cases hlen : 1 < (split_by_sentences maxSize (stripStr para)).length
            · rw [if_pos hlen]
              exact hasContent_append_right (hpcsc _ (getLastD_mem _ [] hpcsne))
            · rw [if_neg hlen]
              exact hpcsc _ (headD_mem [] hpcsne)
        · rw [if_neg hbig]
          exact ⟨hchunks1, Or.inr (hasContent_append_right hpc)⟩

/-- Every chunk string produced by the paragraph loop has content. -/
lemma split_into_chunk_strings_content (maxSize overlap : Nat) (text : Str) :
    ∀ s ∈ split_into_chunk_strings maxSize overlap text, HasContent s := by
  have hinv : ChunkStateInv
      ((splitDoubleNewline text).foldl (paragraphStep maxSize overlap) ([], [])) :=
    foldl_preserves _ ChunkStateInv _ ([], [])
      (fun s a _ h2 => paragraphStep_content maxSize overlap s a h2)
      ⟨by simp, Or.inl rfl⟩
  unfold split_into_chunk_strings
  rcases hfold : (splitDoubleNewline text).foldl (paragraphStep maxSize overlap) ([], [])
    with ⟨chunks, cur⟩
  rw [hfold] at hinv
  obtain ⟨h1, h2⟩ := hinv
  dsimp only at h1 h2 ⊢
  by_cases hcur : cur = []
  · rw [if_pos hcur]
    exact h1
  · rw [if_neg hcur]
    intro s hs
    rcases List.mem_append.mp hs with hs1 | hs2
    · exact h1 s hs1
    · rw [List.mem_singleton.mp hs2]
      exact h2.resolve_left hcur

/-- When no chunk string strips to nothing, the final object loop skips
nothing: indices are consecutive from `i` and every chunk carries the
precomputed total. -/
lemma toChunkObjects_spec (md : DocMeta) (total : Nat) :
    ∀ (strs : List Str) (i : Nat), (∀ t ∈ strs, stripStr t ≠ []) →
      (toChunkObjects md total i strs).map (fun c => c.metadata.chunk_index) =
        List.range' i strs.length ∧
      (∀ c ∈ toChunkObjects md total i strs, c.metadata.total_chunks = total) ∧
      (∀ c ∈ toChunkObjects md total i strs, ∃ t ∈ strs, c.text = stripStr t) := by
  intro strs
  induction strs with
  | nil =>
    intro i _
    refine ⟨by simp [toChunkObjects, List.range'], by simp [toChunkObjects], by simp [toChunkObjects]⟩
  | cons t rest ih =>
    intro i hne
    have ht : stripStr t ≠ [] := hne t (List.mem_cons_self t rest)
    have hrest : ∀ x ∈ rest, stripStr x ≠ [] :=
      fun x hx => hne x (List.mem_cons_of_mem t hx)
    obtain ⟨ih1, ih2, ih3⟩ := ih (i + 1) hrest
    simp only [toChunkObjects, if_neg ht]
    refine ⟨?_, ?_, ?_⟩
    · simp only [List.map_cons, ih1, List.length_cons, List.range'_succ]
      rfl
    · intro c hc
      rcases List.mem_cons.mp hc with h1 | h2
      · subst h1
        rfl
      · exact ih2 c h2
    · intro c hc
      rcases List.mem_cons.mp hc with h1 | h2
      · exact ⟨t, List.mem_cons_self t rest, by subst h1; rfl⟩
      · obtain ⟨t2, ht2, he⟩ := ih3 c h2
        exact ⟨t2, List.mem_cons_of_mem t ht2, he⟩

/-- C5: for any document, the produced chunks carry `chunk_index` values
exactly `0..N-1` in order and `total_chunks = N`, where `N` is the number
of produced chunks (hence `chunk_index < total_chunks` throughout). -/
theorem chunk_document_index_total_invariant (maxSize overlap : Nat) (md : DocMeta)
    (text : Str) :
    (chunk_document maxSize overlap md text).map (fun c => c.metadata.chunk_index) =
      List.range (chunk_document maxSize overlap md text).length ∧
    ∀ c ∈ chunk_document maxSize overlap md text,
      c.metadata.total_chunks = (chunk_document maxSize overlap md text).length := by
  unfold chunk_document
  dsimp only
  by_cases h1 : clean_text text = []
  · rw [if_pos h1]
    simp
  · rw [if_neg h1]
    by_cases h2 : (clean_text text).length ≤ maxSize
    · rw [if_pos h2]
      refine ⟨by simp [List.range, mkChunk]; rfl, ?_⟩
      intro c hc
      rw [List.mem_singleton.mp hc]
      rfl
    · rw [if_neg h2]
      unfold split_into_chunks
      dsimp only
      have hcont := split_into_chunk_strings_content maxSize overlap (clean_text text)
      have hstrip : ∀ t ∈ split_into_chunk_strings maxSize overlap (clean_text text),
          stripStr t ≠ [] :=
        fun t ht => stripStr_ne_nil_of_hasContent (hcont t ht)
      obtain ⟨hmap, htot, _⟩ := toChunkObjects_spec md
        (split_into_chunk_strings maxSize overlap (clean_text text)).length
        (split_into_chunk_strings maxSize overlap (clean_text text)) 0 hstrip
      have hlen : (toChunkObjects md
          (split_into_chunk_strings maxSize overlap (clean_text text)).length 0
          (split_into_chunk_strings maxSize overlap (clean_text text))).length =
          (split_into_chunk_strings maxSize overlap (clean_text text)).length := by
        have := congrArg List.length hmap
        simpa using this
      constructor
      · rw [hmap, hlen, List.range_eq_range']
      · intro c hc
        rw [hlen]
        exact htot c hc

/-- C5 witness: the index/total invariant instantiated on a concrete
single-chunk document. -/
theorem chunk_document_index_total_invariant_witness :
    (chunk_document 20 5 docMeta0 ("hi there".toList)).map
      (fun c => c.metadata.chunk_index) = [0] ∧
    (mkChunk docMeta0 0 1 ("hi there".toList)).metadata.total_chunks =
      (chunk_document 20 5 docMeta0 ("hi there".toList)).length := by
  constructor
  · have h := (chunk_document_index_total_invariant 20 5 docMeta0 ("hi there".toList)).1
    rw [h]
    decide
  · exact (chunk_document_index_total_invariant 20 5 docMeta0 ("hi there".toList)).2
      _ (by decide)

/-- With a positive overlap, a last-characters slice has at most `k`
characters (the `k = 0` Python quirk is excluded). -/
lemma lastChars_length_le {k : Nat} (hk : 1 ≤ k) (l : Str) : (lastChars k l).length ≤ k := by
  unfold lastChars
  rw [if_neg (by omega : ¬ k = 0), List.length_drop]
  omega

/-- With a positive overlap, the word-boundary helper returns at most `k`
characters. -/
lemma overlap_wb_length_le {k : Nat} (hk : 1 ≤ k) (t : Str) :
    (get_overlap_at_word_boundary k t).length ≤ k := by
  unfold get_overlap_at_word_boundary
  by_cases h1 : t.length ≤ k
  · rw [if_pos h1]
    exact h1
  · rw [if_neg h1]
    have hov := lastChars_length_le hk t
    cases hrf : rfindSpace (lastChars k t) with
    | none => simpa [hrf] using hov
    | some i =>
      simp only [hrf]
      by_cases hi : 0 < i
      · rw [if_pos hi, List.length_take]
        omega
      · rw [if_neg hi]
        exact hov

/-- The middle loop of the oversized-paragraph branch keeps chunks within
`maxSize + overlap` and the carried seed within `overlap`. -/
lemma middleFold_size (maxSize overlap : Nat) (hov : 1 ≤ overlap) (l : List Str)
    (st0 : List Str × Str) (hl : ∀ g ∈ l, g.length ≤ maxSize)
    (h1 : ∀ s ∈ st0.1, s.length ≤ maxSize + overlap) (h2 : st0.2.length ≤ overlap) :
    (∀ s ∈ (l.foldl (middleStep maxSize overlap) st0).1, s.length ≤ maxSize + overlap) ∧
    (l.foldl (middleStep maxSize overlap) st0).2.length ≤ overlap := by
  refine foldl_preserves (middleStep maxSize overlap)
    (fun st => (∀ s ∈ st.1, s.length ≤ maxSize + overlap) ∧ st.2.length ≤ overlap)
    l st0 ?_ ⟨h1, h2⟩
  intro s a ha hs
  obtain ⟨cks, ot⟩ := s
  obtain ⟨hs1, hs2⟩ := hs
  dsimp only at hs1 hs2
  unfold middleStep
  dsimp only
  by_cases hov2 : maxSize < (ot ++ a).length
  · rw [if_pos hov2]
    constructor
    · intro s2 hm
      rcases List.mem_append.mp hm with hm1 | hm2
      · exact hs1 s2 hm1
      · rw [List.mem_singleton.mp hm2, List.length_append]
        have := hl a ha
        omega
    · exact overlap_wb_length_le hov _
  · rw [if_neg hov2]
    exact ⟨hs1, hs2⟩

/-- One paragraph step keeps the size invariant, provided every sentence
of the paragraph fits in `maxSize` and the overlap is positive. -/
lemma paragraphStep_size (maxSize overlap : Nat) (hov : 1 ≤ overlap)
    (st : List Str × Str) (para : Str)
    (hsent : ∀ s ∈ sentencesOf (stripStr para), s.length ≤ maxSize)
    (h : SizeInv maxSize overlap st) :
    SizeInv maxSize overlap (paragraphStep maxSize overlap st para) := by
  obtain ⟨chunks, cur⟩ := st
  obtain ⟨h1, h2⟩ := h
  dsimp only at h1 h2
  unfold paragraphStep
  dsimp only
  by_cases hp : stripStr para = []
  · rw [if_pos hp]
    exact ⟨h1, h2⟩
  · rw [if_neg hp]
    by_cases hfit : cur.length + (stripStr para).length + 2 ≤ maxSize
    · rw [if_pos hfit]
      refine ⟨h1, ?_⟩
      by_cases hcn : cur = []
      · rw [if_pos hcn]
        dsimp only
        subst hcn
        simp only [List.length_nil] at hfit
        omega
      · rw [if_neg hcn]
        dsimp only
        simp only [List.length_append, List.length_cons]
        omega
    · rw [if_neg hfit]
      by_cases hcn : cur = []
      · rw [if_pos hcn]
        exact ⟨h1, h2⟩
      · rw [if_neg hcn]
        have hot : (get_overlap_at_word_boundary overlap (lastChars overlap cur)).length ≤
            overlap := overlap_wb_length_le hov _
        have hchunks1 : ∀ s ∈ chunks ++ [cur], s.length ≤ maxSize + overlap := by
          intro s hs
          rcases List.mem_append.mp hs with hx | hx
          · exact h1 s hx
          · rw [List.mem_singleton.mp hx]
            exact h2
        by_cases hbig : maxSize < (stripStr para).length
        · rw [if_pos hbig]
          have hpcs_le : ∀ g ∈ split_by_sentences maxSize (stripStr para),
              g.length ≤ maxSize := split_by_sentences_le hsent
          have hpcsne : split_by_sentences maxSize (stripStr para) ≠ [] :=
            split_by_sentences_ne_nil
          have hmid := middleFold_size maxSize overlap hov
            ((split_by_sentences maxSize (stripStr para)).drop 1).dropLast
            (chunks ++ [cur] ++
              [get_overlap_at_word_boundary overlap (lastChars overlap cur) ++
                (split_by_sentences maxSize (stripStr para)).headD []],
              get_overlap_at_word_boundary overlap (lastChars overlap cur))
            (fun g hg => hpcs_le g
              ((List.drop_sublist 1 _).subset ((List.dropLast_sublist _).subset hg)))
            (by
              intro s hs
              rcases List.mem_append.mp hs with hx | hx
              · exact hchunks1 s hx
              · rw [List.mem_singleton.mp hx, List.length_append]
                have := hpcs_le _ (headD_mem [] hpcsne)
                omega)
            hot
          refine ⟨hmid.1, ?_⟩
          dsimp only
          by_cases hlen : 1 < (split_by_sentences maxSize (stripStr para)).length
          · rw [if_pos hlen, List.length_append]
            have := hpcs_le _ (getLastD_mem _ [] hpcsne)
            have := hmid.2
            omega
          · rw [if_neg hlen]
            have := hpcs_le _ (headD_mem [] hpcsne)
            omega
        · rw [if_neg hbig]
          refine ⟨hchunks1, ?_⟩
          dsimp only
          rw [List.length_append]
          omega

/-- Every chunk string produced by the paragraph loop stays within
`maxSize + overlap`, under the sentence-size hypothesis. -/
lemma split_into_chunk_strings_size (maxSize overlap : Nat) (hov : 1 ≤ overlap)
    (text : Str)
    (hsent : ∀ p ∈ splitDoubleNewline text,
      ∀ s ∈ sentencesOf (stripStr p), s.length ≤ maxSize) :
    ∀ s ∈ split_into_chunk_strings maxSize overlap text,
      s.length ≤ maxSize + overlap := by
  have hinv : SizeInv maxSize overlap
      ((splitDoubleNewline text).foldl (paragraphStep maxSize overlap) ([], [])) :=
    foldl_preserves _ (SizeInv maxSize overlap) _ ([], [])
      (fun s a ha h2 => paragraphStep_size maxSize overlap hov s a (hsent a ha) h2)
      ⟨by simp, by simp⟩
  unfold split_into_chunk_strings
  rcases hfold : (splitDoubleNewline text).foldl (paragraphStep maxSize overlap) ([], [])
    with ⟨chunks, cur⟩
  rw [hfold] at hinv
  obtain ⟨h1, h2⟩ := hinv
  dsimp only at h1 h2 ⊢
  by_cases hcur : cur = []
  · rw [if_pos hcur]
    exact h1
  · rw [if_neg hcur]
    intro s hs
    rcases List.mem_append.mp hs with hs1 | hs2
    · exact h1 s hs1
    · rw [List.mem_singleton.mp hs2]
      exact h2

/-- C4: every chunk produced by `chunk_document` has at most
`maxSize + overlap` characters, provided the overlap is positive and no
single sentence of any paragraph exceeds `maxSize` (the claim's stated
exception: an oversized sentence is never split further). -/
theorem chunk_document_size_bound (maxSize overlap : Nat) (md : DocMeta) (text : Str)
    (hov : 1 ≤ overlap)
    (hsent : ∀ p ∈ splitDoubleNewline (clean_text text),
      ∀ s ∈ sentencesOf (stripStr p), s.length ≤ maxSize) :
    ∀ c ∈ chunk_document maxSize overlap md text,
      c.text.length ≤ maxSize + overlap := by
  unfold chunk_document
  dsimp only
  by_cases h1 : clean_text text = []
  · rw [if_pos h1]
    simp
  · rw [if_neg h1]
    by_cases h2 : (clean_text text).length ≤ maxSize
    · rw [if_pos h2]
      intro c hc
      rw [List.mem_singleton.mp hc]
      exact le_trans h2 (Nat.le_add_right _ _)
    · rw [if_neg h2]
      unfold split_into_chunks
      dsimp only
      have hcont := split_into_chunk_strings_content maxSize overlap (clean_text text)
      have hstrip : ∀ t ∈ split_into_chunk_strings maxSize overlap (clean_text text),
          stripStr t ≠ [] :=
        fun t ht => stripStr_ne_nil_of_hasContent (hcont t ht)
      have hsize := split_into_chunk_strings_size maxSize overlap hov (clean_text text) hsent
      obtain ⟨_, _, htext⟩ := toChunkObjects_spec md
        (split_into_chunk_strings maxSize overlap (clean_text text)).length
        (split_into_chunk_strings maxSize overlap (clean_text text)) 0 hstrip
      intro c hc
      obtain ⟨t, ht, he⟩ := htext c hc
      rw [he]
      exact le_trans (stripStr_length_le t) (hsize t ht)

/-- C4 witness: a small document whose sentences all fit yields chunks
within the bound at `maxSize = 20`, `overlap = 5`. -/
theorem chunk_document_size_bound_witness :
    (mkChunk docMeta0 0 1 (clean_text ("hello. world.".toList))).text.length ≤ 20 + 5 :=
  chunk_document_size_bound 20 5 docMeta0 ("hello. world.".toList) (by decide) (by decide)
    _ (by decide)

end Taxentia
